import Mathlib

/-!
# Verification of the knit-graph core (`knit_graphs/Knit_Graph.py`)

A shallow embedding of the knit-graph data structure: loops strung on
yarns, a directed graph of "parent loop pulled through child loop"
edges, and the course-decomposition algorithms.  Python dictionaries
are modelled as association lists with insertion-order semantics
(assigning to an existing key updates it in place, a new key is
appended), matching the iteration order the algorithms depend on.
-/

/-- Python-dict lookup on an association list: first binding wins
(by construction keys are unique, so this is the current binding). -/
def dictFind? {α β : Type} [DecidableEq α] (d : List (α × β)) (k : α) : Option β :=
  match d with
  | [] => none
  | (k1, v) :: rest => if k1 = k then some v else dictFind? rest k

/-- Python-dict assignment `d[k] = v`: update in place when the key
exists, otherwise append the new binding at the end. -/
def dictInsert {α β : Type} [DecidableEq α] (d : List (α × β)) (k : α) (v : β) : List (α × β) :=
  match d with
  | [] => [(k, v)]
  | (k1, v1) :: rest => if k1 = k then (k, v) :: rest else (k1, v1) :: dictInsert rest k v

/-- The two pull directions of a loop (`Pull_Direction` in the source). -/
inductive Pull_Direction : Type where
  | BtF : Pull_Direction
  | FtB : Pull_Direction
deriving DecidableEq, Repr

/-- `Pull_Direction.opposite` from the source: BtF maps to FtB,
everything else (i.e. FtB) maps to BtF. -/
def Pull_Direction.opposite (d : Pull_Direction) : Pull_Direction :=
  match d with
  | Pull_Direction.BtF => Pull_Direction.FtB
  | Pull_Direction.FtB => Pull_Direction.BtF

/-- Modelled from the spec: class `Loop` (file `knit_graphs/Loop.py` is
not in the sources; its shape is taken from spec section 3).  A loop has a
unique id, the id of its owning yarn, a twist flag and an ordered stack
of the parent loops pulled through it; per the spec design notes the
parent stack is represented by the parents' loop ids. -/
structure Loop : Type where
  loop_id : Nat
  yarn_id : String
  is_twisted : Bool
  parent_loops : List Nat
deriving DecidableEq, Repr

/-- Python `list.insert(i, x)` for a possibly negative index:
a negative index counts from the end, and positions beyond either end
clamp (so an index past the length appends). -/
def pyListInsert (l : List Nat) (i : Int) (x : Nat) : List Nat :=
  let j : Nat := (if i < 0 then max 0 ((l.length : Int) + i) else min i (l.length : Int)).toNat
  l.take j ++ [x] ++ l.drop j

/-- Modelled from the spec: `Loop.add_parent_loop(parent, stack_position)`
(spec section 4.1).  With no stack position the parent is appended at
the top (end) of the stack; with one it is inserted at that position,
shifting later entries. -/
def Loop.add_parent_loop (l : Loop) (parent : Nat) (stack_position : Option Int) : Loop :=
  match stack_position with
  | none => { l with parent_loops := l.parent_loops ++ [parent] }
  | some i => { l with parent_loops := pyListInsert l.parent_loops i parent }

/-- Modelled from the spec: class `Yarn` (file `knit_graphs/Yarn.py` is
not in the sources; its shape is taken from spec sections 3 and 4.2).
A yarn has an id and the ordered sequence of the loop ids strung onto
it; the machine carrier is opaque to everything verified here and is
omitted. -/
structure Yarn : Type where
  yarn_id : String
  loop_ids : List Nat
deriving DecidableEq, Repr

/-- Modelled from the spec: yarn membership test (spec section 4.2),
by loop id. -/
def Yarn.contains_loop (y : Yarn) (l : Loop) : Bool :=
  l.loop_id ∈ y.loop_ids

/-- Modelled from the spec: `Yarn.add_loop_to_end` (spec section 4.2)
appends a loop at the end of the yarn sequence. -/
def Yarn.add_loop_to_end (y : Yarn) (l : Loop) : Yarn :=
  { y with loop_ids := y.loop_ids ++ [l.loop_id] }

/-- Per-edge attributes carried by a stitch edge of the graph. -/
structure EdgeAttr : Type where
  pull_direction : Pull_Direction
  depth : Int
  parent_offset : Int
deriving DecidableEq, Repr

/-- The `Knit_Graph` state.  `nodes` is the insertion-ordered node list
of the backing directed graph, `node_loops` the node attribute `loop`
keyed by node id (this is the shared heap: the `loops` dictionary of the
Python object aliases the very same `Loop` objects, so it is represented
by its key list `loop_keys` with values read from `node_loops`),
`edges` the insertion-ordered edge list with attributes, and `yarns`
the yarn dictionary. -/
structure Knit_Graph : Type where
  nodes : List Nat
  node_loops : List (Nat × Loop)
  edges : List ((Nat × Nat) × EdgeAttr)
  loop_keys : List Nat
  yarns : List (String × Yarn)
  last_loop_id : Int
deriving DecidableEq, Repr

/-- `Knit_Graph.__init__`: everything empty, `last_loop_id = -1`. -/
def Knit_Graph.empty : Knit_Graph :=
  { nodes := [], node_loops := [], edges := [], loop_keys := [], yarns := [], last_loop_id := -1 }

/-- `networkx.DiGraph.add_node(id, loop=loop)`: a fresh id is appended to
the node list, an existing id keeps its position; the `loop` attribute is
set either way. -/
def Knit_Graph.addNode (g : Knit_Graph) (l : Loop) : Knit_Graph :=
  { g with
    nodes := if l.loop_id ∈ g.nodes then g.nodes else g.nodes ++ [l.loop_id],
    node_loops := dictInsert g.node_loops l.loop_id l }

/-- `Knit_Graph.add_yarn`: registers the yarn under its id,
overwriting silently when the id already exists. -/
def Knit_Graph.add_yarn (g : Knit_Graph) (y : Yarn) : Knit_Graph :=
  { g with yarns := dictInsert g.yarns y.yarn_id y }

/-- `Knit_Graph.add_loop`.  The node is added to the directed graph
first; then the yarn-registration assert runs (on failure the method
raises there, returning flag `false`, with the node already added); on
success the loop is appended to its yarn when not yet on it, and
recorded in the `loops` dictionary. -/
def Knit_Graph.add_loop (g : Knit_Graph) (l : Loop) : Knit_Graph × Bool :=
  let g1 := g.addNode l
  match dictFind? g1.yarns l.yarn_id with
  | none => (g1, false)
  | some y =>
    let g2 :=
      if y.contains_loop l then g1
      else { g1 with yarns := dictInsert g1.yarns l.yarn_id (y.add_loop_to_end l) }
    ({ g2 with
        loop_keys := if l.loop_id ∈ g2.loop_keys then g2.loop_keys else g2.loop_keys ++ [l.loop_id] },
      true)

/-- `Knit_Graph.connect_loops`.  Both asserts run before any mutation,
so a failed call returns the graph unchanged with flag `false`; a
successful call records the edge with its three attributes and pushes
the parent onto the child loop's parent stack. -/
def Knit_Graph.connect_loops (g : Knit_Graph) (parent_loop_id child_loop_id : Nat)
    (pull_direction : Pull_Direction) (stack_position : Option Int)
    (depth : Int) (parent_offset : Int) : Knit_Graph × Bool :=
  if parent_loop_id ∈ g.nodes ∧ child_loop_id ∈ g.nodes then
    let g1 := { g with
      edges := dictInsert g.edges (parent_loop_id, child_loop_id)
        { pull_direction := pull_direction, depth := depth, parent_offset := parent_offset } }
    match dictFind? g1.node_loops child_loop_id with
    | some child_loop =>
      ({ g1 with
          node_loops := dictInsert g1.node_loops child_loop_id
            (child_loop.add_parent_loop parent_loop_id stack_position) }, true)
    | none => (g1, false)
  else (g, false)

/-- `networkx.DiGraph.predecessors(c)`: the parents of `c`, i.e. the
sources of the edges pointing into `c`. -/
def Knit_Graph.predecessors (g : Knit_Graph) (c : Nat) : List Nat :=
  (g.edges.filter (fun e => e.1.2 = c)).map (fun e => e.1.1)

/-- The loop state threaded through the `get_courses` traversal:
the two result dictionaries, the current course's membership set and
ordered list, and the current course index. -/
structure CourseState : Type where
  loop_ids_to_course : List (Nat × Nat)
  course_to_loop_ids : List (Nat × List Nat)
  current_course_set : List Nat
  current_course : List Nat
  course : Nat
deriving DecidableEq, Repr

/-- One iteration of the `get_courses` loop body on node `loop_id`:
when no predecessor of the node is in the current course it joins the
current course, otherwise the current course is closed and a new one is
opened containing just this node. -/
def coursesStep (g : Knit_Graph) (st : CourseState) (loop_id : Nat) : CourseState :=
  if (g.predecessors loop_id).all (fun p => !(st.current_course_set.contains p)) then
    { st with
      current_course_set := loop_id :: st.current_course_set,
      current_course := st.current_course ++ [loop_id],
      loop_ids_to_course := dictInsert st.loop_ids_to_course loop_id st.course }
  else
    { loop_ids_to_course := dictInsert st.loop_ids_to_course loop_id (st.course + 1),
      course_to_loop_ids := dictInsert st.course_to_loop_ids st.course st.current_course,
      current_course_set := [loop_id],
      current_course := [loop_id],
      course := st.course + 1 }

/-- `Knit_Graph.get_courses`: fold the loop body over the nodes in
insertion order, then record the final open course. -/
def Knit_Graph.get_courses (g : Knit_Graph) : List (Nat × Nat) × List (Nat × List Nat) :=
  let st := g.nodes.foldl (coursesStep g)
    { loop_ids_to_course := [], course_to_loop_ids := [],
      current_course_set := [], current_course := [], course := 0 }
  (st.loop_ids_to_course, dictInsert st.course_to_loop_ids st.course st.current_course)

/-- `Knit_Graph.get_courses` seen as a method call on the object state:
the body only reads `self.graph`, so the state comes back unchanged
alongside the computed result. -/
def Knit_Graph.get_courses_run (g : Knit_Graph) :
    (List (Nat × Nat) × List (Nat × List Nat)) × Knit_Graph :=
  (g.get_courses, g)

/-- Python `course2loop.setdefault(v, []).append(k)`: append `x` onto the
list bound to `k`, first binding `k` to the empty list when absent. -/
def setdefaultAppend (d : List (Nat × List Nat)) (k : Nat) (x : Nat) : List (Nat × List Nat) :=
  match d with
  | [] => [(k, [x])]
  | (k1, v) :: rest => if k1 = k then (k1, v ++ [x]) :: rest else (k1, v) :: setdefaultAppend rest k x

/-- Insertion of one element into an ascending list, the auxiliary step
of `sortNat`. -/
def insortNat (x : Nat) : List Nat → List Nat
  | [] => [x]
  | y :: ys => if x ≤ y then x :: y :: ys else y :: insortNat x ys

/-- Python `list.sort()` on a list of ints: ascending order. -/
def sortNat (l : List Nat) : List Nat :=
  l.foldr insortNat []

/-- `Knit_Graph.deprecated_get_courses`: walks `self.loops` in insertion
order, bumps the course counter once per parent-stack entry found in the
current course, then inverts the map and sorts every course list. -/
def Knit_Graph.deprecated_get_courses (g : Knit_Graph) :
    List (Nat × Nat) × List (Nat × List Nat) :=
  let fin := g.loop_keys.foldl
    (fun (acc : List (Nat × Nat) × Nat) child_loop_id =>
      let parents : List Nat :=
        match dictFind? g.node_loops child_loop_id with
        | some l => l.parent_loops
        | none => []
      let course_id := parents.foldl
        (fun course_id parent_loop_id =>
          match dictFind? acc.1 parent_loop_id with
          | some c => if c = course_id then course_id + 1 else course_id
          | none => course_id)
        acc.2
      (dictInsert acc.1 child_loop_id course_id, course_id))
    ([], 0)
  let loop2course := fin.1
  let course2loop := loop2course.foldl (fun d kv => setdefaultAppend d kv.2 kv.1) []
  (loop2course, course2loop.map (fun kv => (kv.1, sortNat kv.2)))

/-! ## Dictionary lemmas -/

theorem dictFind?_insert_self {α β : Type} [DecidableEq α] (d : List (α × β)) (k : α) (v : β) :
    dictFind? (dictInsert d k v) k = some v := by
  induction d with
  | nil => simp [dictInsert, dictFind?]
  | cons hd tl ih =>
    obtain ⟨k1, v1⟩ := hd
    by_cases h : k1 = k <;> simp [dictInsert, dictFind?, h, ih]

theorem dictFind?_insert_ne {α β : Type} [DecidableEq α] (d : List (α × β)) (k k2 : α) (v : β)
    (h : k2 ≠ k) : dictFind? (dictInsert d k v) k2 = dictFind? d k2 := by
  induction d with
  | nil => simp [dictInsert, dictFind?, Ne.symm h]
  | cons hd tl ih =>
    obtain ⟨k1, v1⟩ := hd
    by_cases h1 : k1 = k
    · subst h1
      simp [dictInsert, dictFind?, Ne.symm h]
    · by_cases h2 : k1 = k2 <;> simp [dictInsert, dictFind?, h, h1, h2, ih]

theorem dictInsert_of_notMem {α β : Type} [DecidableEq α] (d : List (α × β)) (k : α) (v : β)
    (h : k ∉ d.map Prod.fst) : dictInsert d k v = d ++ [(k, v)] := by
  induction d with
  | nil => simp [dictInsert]
  | cons hd tl ih =>
    obtain ⟨k1, v1⟩ := hd
    simp only [List.map_cons, List.mem_cons] at h
    push_neg at h
    simp [dictInsert, Ne.symm h.1, ih h.2]

theorem dictFind?_eq_none_of_notMem {α β : Type} [DecidableEq α] (d : List (α × β)) (k : α)
    (h : k ∉ d.map Prod.fst) : dictFind? d k = none := by
  induction d with
  | nil => rfl
  | cons hd tl ih =>
    obtain ⟨k1, v1⟩ := hd
    simp only [List.map_cons, List.mem_cons] at h
    push_neg at h
    simp [dictFind?, Ne.symm h.1, ih h.2]

theorem dictFind?_isSome_of_mem {α β : Type} [DecidableEq α] (d : List (α × β)) (k : α)
    (h : k ∈ d.map Prod.fst) : ∃ v, dictFind? d k = some v := by
  induction d with
  | nil => simp at h
  | cons hd tl ih =>
    obtain ⟨k1, v1⟩ := hd
    by_cases h1 : k1 = k
    · exact ⟨v1, by simp [dictFind?, h1]⟩
    · simp only [List.map_cons, List.mem_cons] at h
      rcases h with h | h
      · exact absurd h.symm h1
      · obtain ⟨v, hv⟩ := ih h
        exact ⟨v, by simp [dictFind?, h1, hv]⟩

theorem mem_of_dictFind?_eq_some {α β : Type} [DecidableEq α] (d : List (α × β)) (k : α) (v : β)
    (h : dictFind? d k = some v) : k ∈ d.map Prod.fst := by
  induction d with
  | nil => simp [dictFind?] at h
  | cons hd tl ih =>
    obtain ⟨k1, v1⟩ := hd
    by_cases h1 : k1 = k
    · simp [h1]
    · simp only [dictFind?, if_neg h1] at h
      simp [ih h]

theorem dictFind?_append_left {α β : Type} [DecidableEq α] (d e : List (α × β)) (k : α) (v : β)
    (h : dictFind? d k = some v) : dictFind? (d ++ e) k = some v := by
  induction d with
  | nil => simp [dictFind?] at h
  | cons hd tl ih =>
    obtain ⟨k1, v1⟩ := hd
    by_cases h1 : k1 = k
    · simp only [dictFind?, if_pos h1] at h
      simp [dictFind?, h1, h]
    · simp only [dictFind?, if_neg h1] at h
      simp [dictFind?, h1, ih h]

theorem dictFind?_append_right {α β : Type} [DecidableEq α] (d e : List (α × β)) (k : α)
    (h : k ∉ d.map Prod.fst) : dictFind? (d ++ e) k = dictFind? e k := by
  induction d with
  | nil => rfl
  | cons hd tl ih =>
    obtain ⟨k1, v1⟩ := hd
    simp only [List.map_cons, List.mem_cons] at h
    push_neg at h
    simp [dictFind?, Ne.symm h.1, ih h.2]

/-! ## Claims about the registration operations -/

/-- C9: `Pull_Direction.opposite` is an involution and never fixes its
argument: the opposite of the opposite of a direction is the direction
itself, and the opposite is always different from it. -/
theorem C9_opposite_involution (d : Pull_Direction) :
    d.opposite.opposite = d ∧ d.opposite ≠ d := by
  cases d <;> exact ⟨rfl, by decide⟩

/-- C2: `connect_loops` with an unregistered parent or child id fails
(flag `false`) and performs no mutation at all: the graph comes back
exactly as it was. -/
theorem C2_connect_loops_unregistered_no_mutation (g : Knit_Graph) (p c : Nat)
    (pd : Pull_Direction) (sp : Option Int) (depth off : Int)
    (h : p ∉ g.nodes ∨ c ∉ g.nodes) :
    g.connect_loops p c pd sp depth off = (g, false) := by
  have hnot : ¬(p ∈ g.nodes ∧ c ∈ g.nodes) := by tauto
  unfold Knit_Graph.connect_loops
  simp [hnot]

theorem C2_witness :
    (0 : Nat) ∉ Knit_Graph.empty.nodes ∧
      Knit_Graph.empty.connect_loops 0 1 Pull_Direction.BtF none 0 0 = (Knit_Graph.empty, false) :=
  ⟨by decide,
    C2_connect_loops_unregistered_no_mutation Knit_Graph.empty 0 1 Pull_Direction.BtF none 0 0
      (Or.inl (by decide))⟩

/-- C8: `add_yarn` is total (it never fails), binds the yarn's id to the
yarn — silently replacing any previous binding of that id — and changes
no other yarn binding and no other component of the graph. -/
theorem C8_add_yarn_total_overwrite (g : Knit_Graph) (y : Yarn) :
    dictFind? (g.add_yarn y).yarns y.yarn_id = some y ∧
    (∀ k, k ≠ y.yarn_id → dictFind? (g.add_yarn y).yarns k = dictFind? g.yarns k) ∧
    (g.add_yarn y).nodes = g.nodes ∧
    (g.add_yarn y).node_loops = g.node_loops ∧
    (g.add_yarn y).edges = g.edges ∧
    (g.add_yarn y).loop_keys = g.loop_keys :=
  ⟨dictFind?_insert_self g.yarns y.yarn_id y,
    fun k hk => dictFind?_insert_ne g.yarns y.yarn_id k y hk, rfl, rfl, rfl, rfl⟩

def C8graph : Knit_Graph :=
  (Knit_Graph.empty.add_yarn { yarn_id := "a", loop_ids := [3] }).add_yarn
    { yarn_id := "b", loop_ids := [] }

def C8yarn : Yarn := { yarn_id := "a", loop_ids := [] }

theorem C8_witness :
    dictFind? (C8graph.add_yarn C8yarn).yarns "a" = some C8yarn ∧
    dictFind? (C8graph.add_yarn C8yarn).yarns "b" = dictFind? C8graph.yarns "b" :=
  ⟨(C8_add_yarn_total_overwrite C8graph C8yarn).1,
    (C8_add_yarn_total_overwrite C8graph C8yarn).2.1 "b" (by decide)⟩

def C1loop : Loop := { loop_id := 0, yarn_id := "y", is_twisted := false, parent_loops := [] }

/-- C1 counterexample: adding a loop with an unregistered yarn id to the
empty graph does fail, but the node set is mutated — the loop's id is
added as a graph node before the yarn assert runs — refuting the claim
that the graph is left entirely unmodified. -/
theorem C1_counterexample :
    (Knit_Graph.empty.add_loop C1loop).2 = false ∧
    (Knit_Graph.empty.add_loop C1loop).1.nodes ≠ Knit_Graph.empty.nodes := by
  constructor
  · rfl
  · decide

/-- C1 (amended): when `add_loop` is called with a loop whose yarn id is
not registered, the call fails with a precondition error, the `loops`
and `yarns` maps and the edge set are unchanged, but the loop's id has
already been added as a node of the directed graph. -/
theorem C1_add_loop_unregistered_yarn (g : Knit_Graph) (l : Loop)
    (h : dictFind? g.yarns l.yarn_id = none) :
    (g.add_loop l).2 = false ∧
    (g.add_loop l).1.loop_keys = g.loop_keys ∧
    (g.add_loop l).1.yarns = g.yarns ∧
    (g.add_loop l).1.edges = g.edges ∧
    l.loop_id ∈ (g.add_loop l).1.nodes := by
  have h2 : dictFind? (g.addNode l).yarns l.yarn_id = none := h
  have heq : g.add_loop l = (g.addNode l, false) := by
    simp only [Knit_Graph.add_loop, h2]
  rw [heq]
  refine ⟨rfl, rfl, rfl, rfl, ?_⟩
  show l.loop_id ∈ (g.addNode l).nodes
  unfold Knit_Graph.addNode
  by_cases hm : l.loop_id ∈ g.nodes <;> simp [hm]

theorem C1_witness :
    dictFind? Knit_Graph.empty.yarns C1loop.yarn_id = none ∧
    (Knit_Graph.empty.add_loop C1loop).2 = false ∧
    (Knit_Graph.empty.add_loop C1loop).1.loop_keys = Knit_Graph.empty.loop_keys ∧
    (Knit_Graph.empty.add_loop C1loop).1.yarns = Knit_Graph.empty.yarns ∧
    (Knit_Graph.empty.add_loop C1loop).1.edges = Knit_Graph.empty.edges ∧
    C1loop.loop_id ∈ (Knit_Graph.empty.add_loop C1loop).1.nodes :=
  ⟨rfl, C1_add_loop_unregistered_yarn Knit_Graph.empty C1loop rfl⟩

/-- C6: `get_courses` is a pure read: running it twice on an unmodified
graph yields identical result pairs, and the call leaves the graph state
unchanged. -/
theorem C6_get_courses_pure (g : Knit_Graph) :
    (Knit_Graph.get_courses_run g).2 = g ∧
    (Knit_Graph.get_courses_run (Knit_Graph.get_courses_run g).2).1 =
      (Knit_Graph.get_courses_run g).1 :=
  ⟨rfl, rfl⟩

def C7yarn : Yarn := { yarn_id := "y", loop_ids := [] }

/-- A graph with two edge-free loops registered with descending ids:
loop 1 is added before loop 0. -/
def C7graph : Knit_Graph :=
  (((Knit_Graph.empty.add_yarn C7yarn).add_loop
      { loop_id := 1, yarn_id := "y", is_twisted := false, parent_loops := [] }).1.add_loop
    { loop_id := 0, yarn_id := "y", is_twisted := false, parent_loops := [] }).1

/-- C7: the deprecated parent-stack-based course decomposition does not
agree with the canonical predecessor-based one on all graphs: on a graph
whose two loops were added in descending id order the canonical
algorithm keeps insertion order inside the course while the deprecated
one sorts it, so the results differ. -/
theorem C7_deprecated_differs :
    C7graph.get_courses ≠ C7graph.deprecated_get_courses := by
  decide

/-- A successful `connect_loops` call in one equation: the edge
dictionary gains the `(p, c)` binding and the child loop's parent stack
gains the parent. -/
theorem connect_loops_success_eq (g : Knit_Graph) (p c : Nat) (pd : Pull_Direction)
    (sp : Option Int) (depth off : Int) (cl : Loop)
    (hp : p ∈ g.nodes) (hc : c ∈ g.nodes)
    (hcl : dictFind? g.node_loops c = some cl) :
    g.connect_loops p c pd sp depth off =
      ({ g with
          edges := dictInsert g.edges (p, c)
            { pull_direction := pd, depth := depth, parent_offset := off },
          node_loops := dictInsert g.node_loops c (cl.add_parent_loop p sp) }, true) := by
  simp only [Knit_Graph.connect_loops, if_pos (And.intro hp hc), hcl]

/-- C3: on a graph containing both endpoint ids, `connect_loops`
succeeds, the directed edge p→c carries exactly the supplied pull
direction, depth and parent offset, and the child loop's parent stack
holds the parent at the requested position — at the top (end) of the
stack when no stack position is supplied, and at the supplied in-bounds
position otherwise. -/
theorem C3_connect_loops_success (g : Knit_Graph) (p c : Nat) (pd : Pull_Direction)
    (sp : Option Int) (depth off : Int) (cl : Loop)
    (hp : p ∈ g.nodes) (hc : c ∈ g.nodes)
    (hcl : dictFind? g.node_loops c = some cl)
    (hsp : ∀ i, sp = some i → 0 ≤ i ∧ i.toNat ≤ cl.parent_loops.length) :
    (g.connect_loops p c pd sp depth off).2 = true ∧
    dictFind? (g.connect_loops p c pd sp depth off).1.edges (p, c) =
      some { pull_direction := pd, depth := depth, parent_offset := off } ∧
    ∃ cl2, dictFind? (g.connect_loops p c pd sp depth off).1.node_loops c = some cl2 ∧
      cl2.parent_loops[(match sp with
        | none => cl.parent_loops.length
        | some i => i.toNat)]? = some p := by
  rw [connect_loops_success_eq g p c pd sp depth off cl hp hc hcl]
  refine ⟨rfl, dictFind?_insert_self _ _ _,
    cl.add_parent_loop p sp, dictFind?_insert_self _ _ _, ?_⟩
  cases sp with
  | none =>
    show (cl.parent_loops ++ [p])[cl.parent_loops.length]? = some p
    exact List.getElem?_concat_length _ _
  | some i =>
    obtain ⟨h0, hle⟩ := hsp i rfl
    show (pyListInsert cl.parent_loops i p)[i.toNat]? = some p
    unfold pyListInsert
    rw [if_neg (not_lt.mpr h0), min_eq_left (Int.toNat_le.mp hle)]
    have hlen : (cl.parent_loops.take i.toNat).length = i.toNat :=
      List.length_take_of_le hle
    have h1 : i.toNat < (cl.parent_loops.take i.toNat ++ [p]).length := by
      simp [hlen]
    rw [List.getElem?_append_left h1]
    calc (cl.parent_loops.take i.toNat ++ [p])[i.toNat]?
        = (cl.parent_loops.take i.toNat ++ [p])[(cl.parent_loops.take i.toNat).length]? := by
          rw [hlen]
      _ = some p := List.getElem?_concat_length _ _

def C3yarn : Yarn := { yarn_id := "y", loop_ids := [] }

/-- A graph with two edge-free loops 0 and 1 on one yarn. -/
def C3graph : Knit_Graph :=
  (((Knit_Graph.empty.add_yarn C3yarn).add_loop
      { loop_id := 0, yarn_id := "y", is_twisted := false, parent_loops := [] }).1.add_loop
    { loop_id := 1, yarn_id := "y", is_twisted := false, parent_loops := [] }).1

theorem C3_witness :
    (C3graph.connect_loops 0 1 Pull_Direction.FtB none 1 (-2)).2 = true ∧
    dictFind? (C3graph.connect_loops 0 1 Pull_Direction.FtB none 1 (-2)).1.edges (0, 1) =
      some { pull_direction := Pull_Direction.FtB, depth := 1, parent_offset := -2 } ∧
    ∃ cl2,
      dictFind? (C3graph.connect_loops 0 1 Pull_Direction.FtB none 1 (-2)).1.node_loops 1 =
        some cl2 ∧
      cl2.parent_loops[(0 : Nat)]? = some 0 :=
  C3_connect_loops_success C3graph 0 1 Pull_Direction.FtB none 1 (-2)
    { loop_id := 1, yarn_id := "y", is_twisted := false, parent_loops := [] }
    (by decide) (by decide) (by decide) (fun _ h => Option.noConfusion h)

/-! ## Course decomposition -/

/-- A node with no predecessor in the current course joins the current
course: the loop body's first branch. -/
theorem coursesStep_of_no_pred (g : Knit_Graph) (st : CourseState) (x : Nat)
    (h : g.predecessors x = []) :
    coursesStep g st x =
      { st with
        current_course_set := x :: st.current_course_set,
        current_course := st.current_course ++ [x],
        loop_ids_to_course := dictInsert st.loop_ids_to_course x st.course } := by
  simp [coursesStep, h]

/-- On an edge-free graph the whole traversal stays in course 0,
accumulating the nodes in order. -/
theorem foldl_coursesStep_no_edges (g : Knit_Graph) (hed : g.edges = []) :
    ∀ (p : List Nat), p.Nodup →
      p.foldl (coursesStep g)
        { loop_ids_to_course := [], course_to_loop_ids := [],
          current_course_set := [], current_course := [], course := 0 } =
      { loop_ids_to_course := p.map (fun x => (x, 0)), course_to_loop_ids := [],
        current_course_set := p.reverse, current_course := p, course := 0 } := by
  intro p
  induction p using List.reverseRecOn with
  | nil => intro _; rfl
  | append_singleton q x ih =>
    intro hnd
    rw [List.nodup_append] at hnd
    have hx : x ∉ q := fun hm => hnd.2.2 hm (List.mem_singleton.mpr rfl)
    rw [List.foldl_append, ih hnd.1]
    simp only [List.foldl_cons, List.foldl_nil]
    have hpred : g.predecessors x = [] := by simp [Knit_Graph.predecessors, hed]
    rw [coursesStep_of_no_pred g _ x hpred]
    have hkeys : x ∉ (q.map (fun y => (y, (0 : Nat)))).map Prod.fst := by
      simpa using hx
    rw [dictInsert_of_notMem _ _ _ hkeys]
    simp

/-- C5: on a graph whose loops have no edges between them,
`get_courses` returns a single course with index 0 holding every loop id
in insertion order, and maps every loop id to course 0. -/
theorem C5_no_edges_single_course (g : Knit_Graph) (hed : g.edges = [])
    (hnd : g.nodes.Nodup) :
    g.get_courses = (g.nodes.map (fun x => (x, 0)), [(0, g.nodes)]) := by
  unfold Knit_Graph.get_courses
  rw [foldl_coursesStep_no_edges g hed g.nodes hnd]
  rfl

def C5yarn : Yarn := { yarn_id := "y", loop_ids := [] }

/-- Three edge-free loops added in the order 0, 1, 2. -/
def C5graph : Knit_Graph :=
  ((((Knit_Graph.empty.add_yarn C5yarn).add_loop
        { loop_id := 0, yarn_id := "y", is_twisted := false, parent_loops := [] }).1.add_loop
      { loop_id := 1, yarn_id := "y", is_twisted := false, parent_loops := [] }).1.add_loop
    { loop_id := 2, yarn_id := "y", is_twisted := false, parent_loops := [] }).1

theorem C5_witness :
    C5graph.edges = [] ∧ C5graph.nodes.Nodup ∧
    C5graph.get_courses = (C5graph.nodes.map (fun x => (x, 0)), [(0, C5graph.nodes)]) :=
  ⟨rfl, by decide, C5_no_edges_single_course C5graph rfl (by decide)⟩

/-- A node with a predecessor in the current course closes it and opens
a new course: the loop body's second branch. -/
theorem coursesStep_of_pred_hit (g : Knit_Graph) (st : CourseState) (x : Nat)
    (h : ((g.predecessors x).all (fun p => !(st.current_course_set.contains p))) = false) :
    coursesStep g st x =
      { loop_ids_to_course := dictInsert st.loop_ids_to_course x (st.course + 1),
        course_to_loop_ids := dictInsert st.course_to_loop_ids st.course st.current_course,
        current_course_set := [x],
        current_course := [x],
        course := st.course + 1 } := by
  simp only [coursesStep, h, Bool.false_eq_true, if_false]

/-- Taking one more element appends the element at the cut. -/
theorem take_succ_getD (xs : List Nat) (k : Nat) (hk : k < xs.length) :
    xs.take (k+1) = xs.take k ++ [xs.getD k 0] := by
  rw [List.take_succ, List.getElem?_eq_getElem hk]
  simp [List.getD_eq_getElem?_getD, List.getElem?_eq_getElem hk]

/-- In a duplicate-free list the element at position `k` does not occur
before position `k`. -/
theorem getD_not_mem_take (xs : List Nat) (hnd : xs.Nodup) (k : Nat) (hk : k < xs.length) :
    xs.getD k 0 ∉ xs.take k := by
  have hsplit : xs.take k ++ xs.drop k = xs := List.take_append_drop k xs
  have hnd2 : (xs.take k ++ xs.drop k).Nodup := by rw [hsplit]; exact hnd
  rw [List.nodup_append] at hnd2
  have hmem : xs.getD k 0 ∈ xs.drop k := by
    rw [List.drop_eq_getElem_cons hk, List.getD_eq_getElem xs 0 hk]
    exact List.mem_cons_self _ _
  exact fun hmt => hnd2.2.2 hmt hmem

/-- Traversal invariant on a chain: after visiting the first `k+1`
nodes every visited node sits alone in its own course. -/
theorem chainFoldInv (g : Knit_Graph) (xs : List Nat) (hnd : xs.Nodup)
    (hfirst : g.predecessors (xs.getD 0 0) = [])
    (hpred : ∀ k, k + 1 < xs.length → g.predecessors (xs.getD (k+1) 0) = [xs.getD k 0]) :
    ∀ k, k < xs.length →
      (xs.take (k+1)).foldl (coursesStep g)
        { loop_ids_to_course := [], course_to_loop_ids := [],
          current_course_set := [], current_course := [], course := 0 } =
      { loop_ids_to_course := (xs.take (k+1)).zip (List.range (k+1)),
        course_to_loop_ids := (List.range k).map (fun i => (i, [xs.getD i 0])),
        current_course_set := [xs.getD k 0],
        current_course := [xs.getD k 0],
        course := k } := by
  intro k
  induction k with
  | zero =>
    intro hk
    rw [take_succ_getD xs 0 hk]
    simp only [List.take_zero, List.nil_append, List.foldl_cons, List.foldl_nil]
    rw [coursesStep_of_no_pred g _ _ hfirst]
    rfl
  | succ k ih =>
    intro hk1
    have hk : k < xs.length := Nat.lt_of_succ_lt hk1
    rw [take_succ_getD xs (k+1) hk1, List.foldl_append, ih hk]
    simp only [List.foldl_cons, List.foldl_nil]
    have hcond : ((g.predecessors (xs.getD (k+1) 0)).all
        (fun p => !(([xs.getD k 0] : List Nat).contains p))) = false := by
      rw [hpred k hk1]
      simp
    rw [coursesStep_of_pred_hit g _ _ hcond]
    have hlen : (xs.take (k+1)).length = k + 1 := by
      rw [List.length_take]
      omega
    have hkeys : ((xs.take (k+1)).zip (List.range (k+1))).map Prod.fst = xs.take (k+1) := by
      apply List.map_fst_zip
      rw [hlen, List.length_range]
    have hnotmem : xs.getD (k+1) 0 ∉ ((xs.take (k+1)).zip (List.range (k+1))).map Prod.fst := by
      rw [hkeys]
      exact getD_not_mem_take xs hnd (k+1) hk1
    rw [dictInsert_of_notMem _ _ _ hnotmem]
    have hckeys : (k : Nat) ∉ ((List.range k).map (fun i => (i, [xs.getD i 0]))).map Prod.fst := by
      simp
    rw [dictInsert_of_notMem _ _ _ hckeys]
    have hzip : (xs.take (k+1)).zip (List.range (k+1)) ++ [(xs.getD (k+1) 0, k+1)] =
        (xs.take (k+1) ++ [xs.getD (k+1) 0]).zip (List.range (k+1) ++ [k+1]) := by
      rw [List.zip_append]
      · rfl
      · rw [hlen, List.length_range]
    have hrange : List.range (k+1) ++ [k+1] = List.range (k+2) :=
      (List.range_succ (k+1)).symm
    have hcl : (List.range k).map (fun i => (i, [xs.getD i 0])) ++ [(k, [xs.getD k 0])] =
        (List.range (k+1)).map (fun i => (i, [xs.getD i 0])) := by
      rw [List.range_succ, List.map_append]
      rfl
    rw [hzip, hrange, hcl]

/-- C4: on a graph whose nodes form a linear chain — node list `xs`
added in order, the first loop with no predecessor and each later loop
with exactly the previous one as sole predecessor — `get_courses`
returns one course per loop: loop `xs[i]` is mapped to course `i` and
course `i` holds exactly `[xs[i]]`, for the course indices 0..n. -/
theorem C4_chain_courses (g : Knit_Graph) (xs : List Nat) (hne : xs ≠ [])
    (hnd : xs.Nodup) (hnodes : g.nodes = xs)
    (hfirst : g.predecessors (xs.getD 0 0) = [])
    (hpred : ∀ k, k + 1 < xs.length → g.predecessors (xs.getD (k+1) 0) = [xs.getD k 0]) :
    g.get_courses =
      (xs.zip (List.range xs.length),
       (List.range xs.length).map (fun i => (i, [xs.getD i 0]))) := by
  obtain ⟨n, hn⟩ : ∃ n, xs.length = n + 1 := by
    cases xs with
    | nil => exact absurd rfl hne
    | cons a t => exact ⟨t.length, rfl⟩
  have hlast : n < xs.length := by omega
  have hinv := chainFoldInv g xs hnd hfirst hpred n hlast
  have htake : xs.take (n+1) = xs := by
    rw [← hn]
    exact List.take_length xs
  rw [htake] at hinv
  unfold Knit_Graph.get_courses
  rw [hnodes, hinv]
  show (xs.zip (List.range (n+1)),
      dictInsert ((List.range n).map (fun i => (i, [xs.getD i 0]))) n [xs.getD n 0]) = _
  have hkeys : (n : Nat) ∉ ((List.range n).map (fun i => (i, [xs.getD i 0]))).map Prod.fst := by
    simp
  rw [dictInsert_of_notMem _ _ _ hkeys]
  have hcl : (List.range n).map (fun i => (i, [xs.getD i 0])) ++ [(n, [xs.getD n 0])] =
      (List.range (n+1)).map (fun i => (i, [xs.getD i 0])) := by
    rw [List.range_succ, List.map_append]
    rfl
  rw [hcl, hn]

def C4yarn : Yarn := { yarn_id := "y", loop_ids := [] }

/-- A three-loop chain 0 → 1 → 2 built with the graph operations. -/
def C4graph : Knit_Graph :=
  ((((((Knit_Graph.empty.add_yarn C4yarn).add_loop
          { loop_id := 0, yarn_id := "y", is_twisted := false, parent_loops := [] }).1.add_loop
        { loop_id := 1, yarn_id := "y", is_twisted := false, parent_loops := [] }).1.add_loop
      { loop_id := 2, yarn_id := "y", is_twisted := false, parent_loops := [] }).1.connect_loops
    0 1 Pull_Direction.BtF none 0 0).1.connect_loops 1 2 Pull_Direction.BtF none 0 0).1

theorem C4_witness :
    C4graph.get_courses = ([(0, 0), (1, 1), (2, 2)], [(0, [0]), (1, [1]), (2, [2])]) := by
  have h := C4_chain_courses C4graph [0, 1, 2] (by decide) (by decide) (by decide) (by decide)
    (by
      intro k hk
      have hl : ([0, 1, 2] : List Nat).length = 3 := rfl
      rw [hl] at hk
      have hk2 : k < 2 := by omega
      interval_cases k <;> decide)
  rw [h]
  rfl

/-- Appending a binding for another key does not change a lookup. -/
theorem dictFind?_append_singleton_ne {α β : Type} [DecidableEq α]
    (d : List (α × β)) (x l : α) (v : β) (h : l ≠ x) :
    dictFind? (d ++ [(x, v)]) l = dictFind? d l := by
  induction d with
  | nil => simp [dictFind?, Ne.symm h]
  | cons hd tl ih =>
    obtain ⟨k1, v1⟩ := hd
    by_cases h1 : k1 = l <;> simp [dictFind?, h1, ih]

/-- Appending a binding for a fresh key makes it the looked-up value. -/
theorem dictFind?_append_singleton_self {α β : Type} [DecidableEq α]
    (d : List (α × β)) (x : α) (v : β) (h : x ∉ d.map Prod.fst) :
    dictFind? (d ++ [(x, v)]) x = some v := by
  rw [dictFind?_append_right d _ x h]
  simp [dictFind?]

/-- The loop body's first branch, stated on the raw branch condition. -/
theorem coursesStep_of_all_no_hit (g : Knit_Graph) (st : CourseState) (x : Nat)
    (h : ((g.predecessors x).all (fun p => !(st.current_course_set.contains p))) = true) :
    coursesStep g st x =
      { st with
        current_course_set := x :: st.current_course_set,
        current_course := st.current_course ++ [x],
        loop_ids_to_course := dictInsert st.loop_ids_to_course x st.course } := by
  simp only [coursesStep, h, if_true]

/-- Invariant of the `get_courses` traversal over the processed prefix
of the node list: the course map's keys are exactly the processed nodes
in order, the closed courses are numbered 0..course-1, and a node is
mapped to a course exactly when it sits in that course's list (the
current course standing for the still-open list). -/
def CoursesInv (processed : List Nat) (st : CourseState) : Prop :=
  st.loop_ids_to_course.map Prod.fst = processed ∧
  st.course_to_loop_ids.map Prod.fst = List.range st.course ∧
  ∀ l c, dictFind? st.loop_ids_to_course l = some c ↔
    ((∃ lst, dictFind? st.course_to_loop_ids c = some lst ∧ l ∈ lst) ∨
     (c = st.course ∧ l ∈ st.current_course))

/-- The traversal's loop body preserves the invariant on a fresh node,
whichever branch is taken. -/
theorem coursesInv_step (g : Knit_Graph) (processed : List Nat) (st : CourseState) (x : Nat)
    (hinv : CoursesInv processed st) (hx : x ∉ processed) :
    CoursesInv (processed ++ [x]) (coursesStep g st x) := by
  obtain ⟨h1, h2, h3⟩ := hinv
  have hxkeys : x ∉ st.loop_ids_to_course.map Prod.fst := by rw [h1]; exact hx
  have hxnone : dictFind? st.loop_ids_to_course x = none :=
    dictFind?_eq_none_of_notMem _ _ hxkeys
  have hxnotcur : x ∉ st.current_course := by
    intro hmem
    have h := (h3 x st.course).mpr (Or.inr ⟨rfl, hmem⟩)
    rw [hxnone] at h
    exact Option.noConfusion h
  have hxnotlst : ∀ c lst, dictFind? st.course_to_loop_ids c = some lst → x ∉ lst := by
    intro c lst hfind hmem
    have h := (h3 x c).mpr (Or.inl ⟨lst, hfind, hmem⟩)
    rw [hxnone] at h
    exact Option.noConfusion h
  have hcourse_not : st.course ∉ st.course_to_loop_ids.map Prod.fst := by
    rw [h2]; simp
  by_cases hcond : ((g.predecessors x).all (fun p => !(st.current_course_set.contains p))) = true
  · rw [coursesStep_of_all_no_hit g st x hcond]
    refine ⟨?_, h2, ?_⟩
    · show (dictInsert st.loop_ids_to_course x st.course).map Prod.fst = processed ++ [x]
      rw [dictInsert_of_notMem _ _ _ hxkeys, List.map_append, h1]
      rfl
    · intro l c
      show dictFind? (dictInsert st.loop_ids_to_course x st.course) l = some c ↔ _
      rw [dictInsert_of_notMem _ _ _ hxkeys]
      by_cases hlx : l = x
      · subst hlx
        rw [dictFind?_append_singleton_self _ _ _ hxkeys]
        constructor
        · intro hc
          exact Or.inr ⟨(Option.some.inj hc).symm, by simp⟩
        · rintro (⟨lst, hf, hm⟩ | ⟨rfl, hm⟩)
          · exact absurd hm (hxnotlst _ _ hf)
          · rfl
      · rw [dictFind?_append_singleton_ne _ _ _ _ hlx, h3 l c]
        constructor
        · rintro (left | ⟨rfl, hm⟩)
          · exact Or.inl left
          · exact Or.inr ⟨rfl, by simp [hm]⟩
        · rintro (left | ⟨rfl, hm⟩)
          · exact Or.inl left
          · rcases List.mem_append.mp hm with hm2 | hm2
            · exact Or.inr ⟨rfl, hm2⟩
            · exact absurd (List.mem_singleton.mp hm2) hlx
  · have hcond2 : ((g.predecessors x).all (fun p => !(st.current_course_set.contains p))) = false :=
      Bool.eq_false_iff.mpr hcond
    rw [coursesStep_of_pred_hit g st x hcond2]
    refine ⟨?_, ?_, ?_⟩
    · show (dictInsert st.loop_ids_to_course x (st.course + 1)).map Prod.fst = processed ++ [x]
      rw [dictInsert_of_notMem _ _ _ hxkeys, List.map_append, h1]
      rfl
    · show (dictInsert st.course_to_loop_ids st.course st.current_course).map Prod.fst =
        List.range (st.course + 1)
      rw [dictInsert_of_notMem _ _ _ hcourse_not, List.map_append, h2]
      rw [List.range_succ]
      rfl
    · intro l c
      show dictFind? (dictInsert st.loop_ids_to_course x (st.course + 1)) l = some c ↔
        ((∃ lst, dictFind? (dictInsert st.course_to_loop_ids st.course st.current_course) c =
            some lst ∧ l ∈ lst) ∨
         (c = st.course + 1 ∧ l ∈ [x]))
      rw [dictInsert_of_notMem _ _ _ hxkeys, dictInsert_of_notMem _ _ _ hcourse_not]
      by_cases hlx : l = x
      · subst hlx
        rw [dictFind?_append_singleton_self _ _ _ hxkeys]
        constructor
        · intro hc
          exact Or.inr ⟨(Option.some.inj hc).symm, by simp⟩
        · rintro (⟨lst, hf, hm⟩ | ⟨rfl, hm⟩)
          · by_cases hcc : c = st.course
            · subst hcc
              rw [dictFind?_append_singleton_self _ _ _ hcourse_not] at hf
              obtain rfl := Option.some.inj hf
              exact absurd hm hxnotcur
            · rw [dictFind?_append_singleton_ne _ _ _ _ hcc] at hf
              exact absurd hm (hxnotlst _ _ hf)
          · rfl
      · rw [dictFind?_append_singleton_ne _ _ _ _ hlx, h3 l c]
        constructor
        · rintro (⟨lst, hf, hm⟩ | ⟨rfl, hm⟩)
          · have hcc : c ≠ st.course := by
              intro hcc
              subst hcc
              exact hcourse_not (mem_of_dictFind?_eq_some _ _ _ hf)
            refine Or.inl ⟨lst, ?_, hm⟩
            rw [dictFind?_append_singleton_ne _ _ _ _ hcc]
            exact hf
          · refine Or.inl ⟨st.current_course, ?_, hm⟩
            rw [dictFind?_append_singleton_self _ _ _ hcourse_not]
        · rintro (⟨lst, hf, hm⟩ | ⟨rfl, hm⟩)
          · by_cases hcc : c = st.course
            · subst hcc
              rw [dictFind?_append_singleton_self _ _ _ hcourse_not] at hf
              obtain rfl := Option.some.inj hf
              exact Or.inr ⟨rfl, hm⟩
            · rw [dictFind?_append_singleton_ne _ _ _ _ hcc] at hf
              exact Or.inl ⟨lst, hf, hm⟩
          · exact absurd (List.mem_singleton.mp hm) hlx

/-- The invariant holds after traversing any duplicate-free node list. -/
theorem coursesInv_foldl (g : Knit_Graph) :
    ∀ ns : List Nat, ns.Nodup →
      CoursesInv ns (ns.foldl (coursesStep g)
        { loop_ids_to_course := [], course_to_loop_ids := [],
          current_course_set := [], current_course := [], course := 0 }) := by
  intro ns
  induction ns using List.reverseRecOn with
  | nil =>
    intro _
    refine ⟨rfl, rfl, ?_⟩
    intro l c
    simp [dictFind?]
  | append_singleton p x ih =>
    intro hnd
    rw [List.nodup_append] at hnd
    have hx : x ∉ p := fun hm => hnd.2.2 hm (List.mem_singleton.mpr rfl)
    rw [List.foldl_append]
    simp only [List.foldl_cons, List.foldl_nil]
    exact coursesInv_step g p _ x (ih hnd.1) hx

/-- C10: the two mappings returned by `get_courses` are mutually
consistent and cover the graph: a loop id is assigned course `c` iff it
appears in the list bound to `c`, every node lies in exactly one course
list, and the course indices used are exactly 0..k. -/
theorem C10_courses_partition (g : Knit_Graph) (hnd : g.nodes.Nodup) :
    (∀ l c, dictFind? g.get_courses.1 l = some c ↔
        ∃ lst, dictFind? g.get_courses.2 c = some lst ∧ l ∈ lst) ∧
    (∀ l, l ∈ g.nodes → ∃! c, ∃ lst, dictFind? g.get_courses.2 c = some lst ∧ l ∈ lst) ∧
    (∃ k, g.get_courses.2.map Prod.fst = List.range (k + 1)) := by
  have hinv := coursesInv_foldl g g.nodes hnd
  unfold CoursesInv at hinv
  obtain ⟨h1, h2, h3⟩ := hinv
  set st := g.nodes.foldl (coursesStep g)
    { loop_ids_to_course := [], course_to_loop_ids := [],
      current_course_set := [], current_course := [], course := 0 } with hst
  have hgc1 : g.get_courses.1 = st.loop_ids_to_course := rfl
  have hgc2 : g.get_courses.2 = dictInsert st.course_to_loop_ids st.course st.current_course :=
    rfl
  have hcourse_not : st.course ∉ st.course_to_loop_ids.map Prod.fst := by
    rw [h2]; simp
  have hins : dictInsert st.course_to_loop_ids st.course st.current_course =
      st.course_to_loop_ids ++ [(st.course, st.current_course)] :=
    dictInsert_of_notMem _ _ _ hcourse_not
  have ha : ∀ l c, dictFind? g.get_courses.1 l = some c ↔
      ∃ lst, dictFind? g.get_courses.2 c = some lst ∧ l ∈ lst := by
    intro l c
    rw [hgc1, hgc2, hins, h3 l c]
    constructor
    · rintro (⟨lst, hf, hm⟩ | ⟨rfl, hm⟩)
      · have hcc : c ≠ st.course := by
          intro hcc
          subst hcc
          exact hcourse_not (mem_of_dictFind?_eq_some _ _ _ hf)
        refine ⟨lst, ?_, hm⟩
        rw [dictFind?_append_singleton_ne _ _ _ _ hcc]
        exact hf
      · refine ⟨st.current_course, ?_, hm⟩
        rw [dictFind?_append_singleton_self _ _ _ hcourse_not]
    · rintro ⟨lst, hf, hm⟩
      by_cases hcc : c = st.course
      · subst hcc
        rw [dictFind?_append_singleton_self _ _ _ hcourse_not] at hf
        obtain rfl := Option.some.inj hf
        exact Or.inr ⟨rfl, hm⟩
      · rw [dictFind?_append_singleton_ne _ _ _ _ hcc] at hf
        exact Or.inl ⟨lst, hf, hm⟩
  refine ⟨ha, ?_, ?_⟩
  · intro l hl
    have hlk : l ∈ st.loop_ids_to_course.map Prod.fst := by rw [h1]; exact hl
    obtain ⟨c, hc⟩ := dictFind?_isSome_of_mem _ _ hlk
    have hc2 : dictFind? g.get_courses.1 l = some c := by rw [hgc1]; exact hc
    refine ⟨c, (ha l c).mp hc2, ?_⟩
    intro c2 hc3
    have := (ha l c2).mpr hc3
    rw [hc2] at this
    exact (Option.some.inj this).symm
  · refine ⟨st.course, ?_⟩
    rw [hgc2, hins, List.map_append, h2]
    rw [List.range_succ]
    rfl

def C10yarn : Yarn := { yarn_id := "y", loop_ids := [] }

/-- Three loops and one edge 1 → 2 built with the graph operations. -/
def C10graph : Knit_Graph :=
  (((((Knit_Graph.empty.add_yarn C10yarn).add_loop
          { loop_id := 0, yarn_id := "y", is_twisted := false, parent_loops := [] }).1.add_loop
        { loop_id := 1, yarn_id := "y", is_twisted := false, parent_loops := [] }).1.add_loop
      { loop_id := 2, yarn_id := "y", is_twisted := false, parent_loops := [] }).1.connect_loops
    1 2 Pull_Direction.BtF none 0 0).1

theorem C10_witness :
    (∀ l c, dictFind? C10graph.get_courses.1 l = some c ↔
        ∃ lst, dictFind? C10graph.get_courses.2 c = some lst ∧ l ∈ lst) ∧
    (∀ l, l ∈ C10graph.nodes → ∃! c, ∃ lst,
        dictFind? C10graph.get_courses.2 c = some lst ∧ l ∈ lst) ∧
    (∃ k, C10graph.get_courses.2.map Prod.fst = List.range (k + 1)) :=
  C10_courses_partition C10graph (by decide)
